import Mathlib

/-!
# Verification of the fauxcable poster-enrichment pipeline

Shallow embedding of `add_posters.py`: the title normalizer, the generic
category mapper, the cache store, the image lookup client and the
enrichment driver, together with proofs of the specified properties.

Strings are modelled as `List Char` (Python `str` is a sequence of Unicode
scalar values).
-/

/-- The string type of the embedding. -/
abbrev Str := List Char

/-- Characters matched by Python's `str.isspace` and by `\s` in a Unicode
regular expression (the set used by `str.strip()` and by `re.sub(r'\s...')`). -/
def isPyWs (c : Char) : Bool :=
  c == ' ' || c == '\t' || c == '\n' || c == '\r' || c == '\x0b' || c == '\x0c' ||
  c == '\x1c' || c == '\x1d' || c == '\x1e' || c == '\x1f' || c == '\u0085' ||
  c == '\u00a0' || c == '\u1680' || ('\u2000' ≤ c && c ≤ '\u200a') ||
  c == '\u2028' || c == '\u2029' || c == '\u202f' || c == '\u205f' || c == '\u3000'

/-- Characters of the regex class `[\s\-–]` in `normalize_title`
(whitespace, ASCII hyphen, en dash). -/
def isWsDash (c : Char) : Bool :=
  isPyWs c || c == '-' || c == '–'

/-- The three-character "new" marker of the regex alternation
`(?:new|ᴺᵉʷ|NEW)` under `re.IGNORECASE`: any ASCII casing of `new`, or the
literal stylized `ᴺᵉʷ` (whose characters have no case mappings). -/
def isMarker (a b c : Char) : Bool :=
  (a.toLower == 'n' && b.toLower == 'e' && c.toLower == 'w') ||
  (a == 'ᴺ' && b == 'ᵉ' && c == 'ʷ')

/-- Whether a string is matched, in full, by the (end-anchored body of the)
pattern `[\s\-–]*\(?(?:new|ᴺᵉʷ|NEW)\)?`.  The parse is deterministic: the
characters of `[\s\-–]` are disjoint from `(` and from every marker start,
so greedy matching needs no backtracking. -/
def matchesP (l : List Char) : Bool :=
  let l1 := l.dropWhile isWsDash
  let l2 := match l1 with
    | '(' :: rest => rest
    | _ => l1
  match l2 with
  | a :: b :: c :: rest => isMarker a b c && (rest == [] || rest == [')'])
  | _ => false

/-- Model of `re.sub(r'[\s\-–]*\(?(?:new|ᴺᵉʷ|NEW)\)?$', '', title, flags=re.IGNORECASE)`:
because the pattern is anchored at the end and its group is mandatory, the
substitution removes exactly the suffix beginning at the leftmost position
whose suffix matches the pattern, or nothing. -/
def stripNew (s : List Char) : List Char :=
  match (List.range (s.length + 1)).find? (fun i => matchesP (s.drop i)) with
  | some i => s.take i
  | none => s

/-- Model of `title.replace("\n", " ")`. -/
def replaceNL (s : List Char) : List Char :=
  s.map (fun c => if c == '\n' then ' ' else c)

/-- Python `str.strip()`: remove leading and trailing whitespace. -/
def pyStrip (s : List Char) : List Char :=
  ((s.dropWhile isPyWs).reverse.dropWhile isPyWs).reverse

/-- Worker for `collapseWs`, indexed by fuel ; the fuel only serves structural
termination and is irrelevant once it dominates the list length. -/
def collapseFuel : Nat → List Char → List Char
  | 0, l => l
  | _ + 1, [] => []
  | _ + 1, [c] => [c]
  | n + 1, c :: d :: rest =>
    if isPyWs c && isPyWs d then
      ' ' :: collapseFuel n ((d :: rest).dropWhile isPyWs)
    else
      c :: collapseFuel n (d :: rest)

/-- Model of `re.sub(r'\s{2,}', ' ', title)`: each maximal run of two or more
whitespace characters becomes a single space; isolated whitespace
characters are kept. -/
def collapseWs (l : List Char) : List Char :=
  collapseFuel l.length l

/-- Model of `unicodedata.normalize("NFKD", ·)`, character-wise, on the
repertoire relevant to the stylized "new" marker: `ᴺ` (U+1D3A), `ᵉ`
(U+1D49) and `ʷ` (U+02B7) carry the compatibility decompositions
`<super> 004E`, `<super> 0065` and `<super> 0077`, i.e. decompose to the
plain letters `N`, `e` and `w`; characters outside the modelled
repertoire are left unchanged. -/
def nfkdChar (c : Char) : List Char :=
  if c == 'ᴺ' then ['N']
  else if c == 'ᵉ' then ['e']
  else if c == 'ʷ' then ['w']
  else [c]

/-- NFKD applied to a whole string (character-wise model). -/
def nfkd (s : List Char) : List Char :=
  (s.map nfkdChar).flatten

/-- The function `normalize_title` from `add_posters.py`: NFKD, strip one trailing
"new" marker, replace newlines by spaces, strip, collapse whitespace runs. -/
def normalize_title (s : Str) : Str :=
  let t1 := nfkd s
  let t2 := stripNew t1
  collapseWs (pyStrip (replaceNL t2))


deriving instance DecidableEq for Except

/-- The fixed `GENERIC_CATEGORY_MAP` dictionary (keys are lowercase). -/
def GENERIC_CATEGORY_MAP : List (Str × Str) := [
  ("news".data, "generic_news.png".data),
  ("newsmagazine".data, "generic_news.png".data),
  ("weather".data, "generic_weather.png".data),
  ("politics".data, "generic_news.png".data),
  ("public affairs".data, "generic_publicaccess.png".data),
  ("religious".data, "generic_religious.png".data),
  ("religion".data, "generic_religious.png".data),
  ("gospel".data, "generic_religious.png".data),
  ("astrological guidance".data, "generic_religious.png".data),
  ("shopping".data, "generic_infomercial.png".data),
  ("infomercial".data, "generic_infomercial.png".data),
  ("consumer".data, "generic_infomercial.png".data),
  ("paid programming".data, "generic_paidprogramming.png".data),
  ("auction".data, "generic_infomercial.png".data),
  ("community".data, "generic_publicaccess.png".data),
  ("fundraiser".data, "generic_publicaccess.png".data),
  ("local event".data, "generic_publicaccess.png".data),
  ("parade".data, "generic_publicaccess.png".data),
  ("town hall".data, "generic_publicaccess.png".data),
  ("off air".data, "generic_unknown.png".data),
  ("tba".data, "generic_unknown.png".data),
  ("special".data, "generic_unknown.png".data),
  ("event".data, "generic_unknown.png".data)]

/-- The constant `GENERIC_UNKNOWN = "generic_unknown.png"`. -/
def GENERIC_UNKNOWN : Str := "generic_unknown.png".data

/-- Python `dict.get` on an association list with unique keys. -/
def dictGet (m : List (Str × Str)) (k : Str) : Option Str :=
  (m.find? (fun e => e.1 == k)).map (fun e => e.2)

/-- The test `c in GENERIC_CATEGORY_MAP`. -/
def isCatKey (c : Str) : Bool :=
  (dictGet GENERIC_CATEGORY_MAP c).isSome

/-- Model of `next((GENERIC_CATEGORY_MAP.get(c) for c in categories if c in
GENERIC_CATEGORY_MAP), None)`: the value for the first category that is a
key of the table, `none` if no category matches. -/
def generic_match (categories : List Str) : Option Str :=
  match categories.find? isCatKey with
  | some c => dictGet GENERIC_CATEGORY_MAP c
  | none => none

/-- The in-memory cache: a dict from normalized title to poster URL
(`some url`) or the explicit no-result marker (`none`), modelled as an
insertion-ordered association list with unique keys. -/
abbrev Cache := List (Str × Option Str)

/-- Combination of `title in cache` and `cache[title]`: `some v` iff the key is
present with value `v`. -/
def cacheFind (cache : Cache) (k : Str) : Option (Option Str) :=
  (cache.find? (fun e => e.1 == k)).map (fun e => e.2)

/-- Python dict assignment `cache[k] = v`: update in place when the key is
present, append otherwise. -/
def cacheInsert (cache : Cache) (k : Str) (v : Option Str) : Cache :=
  if (cache.find? (fun e => e.1 == k)).isSome then
    cache.map (fun e => if e.1 == k then (k, v) else e)
  else cache ++ [(k, v)]

/-- A JSON value of the shape that can occur in the cache file: an object
whose fields are strings or nulls (the serialized text layer of
`json.dump`/`json.load` is abstracted to the JSON value it denotes). -/
inductive JVal where
  | jnull : JVal
  | jstr : Str → JVal
  | jobj : List (Str × JVal) → JVal

/-- The function `save_cache`: `json.dump(cache, f, ...)` — the JSON object written to
the cache file, one field per entry, `null` for the no-result marker. -/
def save_cache (cache : Cache) : JVal :=
  .jobj (cache.map (fun e =>
    (e.1, match e.2 with
          | some s => JVal.jstr s
          | none => JVal.jnull)))

/-- One field of the cache file read back as a cache entry. -/
def readEntry : Str × JVal → Option (Str × Option Str)
  | (k, .jnull) => some (k, none)
  | (k, .jstr s) => some (k, some s)
  | (_, .jobj _) => none

/-- Fields of the cache file read back one by one, failing on the first
field that is not a string or null. -/
def readEntries : List (Str × JVal) → Option Cache
  | [] => some []
  | e :: rest =>
    match readEntry e with
    | none => none
    | some ce =>
      match readEntries rest with
      | none => none
      | some crest => some (ce :: crest)

/-- The function `load_cache` on an existing cache file: `json.load(f)` — deserialize
the JSON object back into the in-memory dict (`none` models a file whose
JSON shape is not a flat string/null object). -/
def load_cache : JVal → Option Cache
  | .jobj fields => readEntries fields
  | _ => none

/-- A `<programme>` element: optional `<title>` text, the texts of its
`<category>` children, and the `src` attributes of its `<icon>` children
(in document order). -/
structure Programme where
  title : Option Str
  categories : List Str
  icons : List Str
deriving DecidableEq

/-- Model of `ET.SubElement(prog, "icon", ...)` with the `src` attribute: append one icon. -/
def addIcon (p : Programme) (src : Str) : Programme :=
  { p with icons := p.icons ++ [src] }

/-- Python truthiness of a string-or-None value (`if url:`):
`None` and the empty string are falsy. -/
def pyTruthy : Option Str → Bool
  | none => false
  | some s => !s.isEmpty

/-- Python `a or b` on string-or-None values. -/
def pyOr (a b : Option Str) : Option Str :=
  if pyTruthy a then a else b

/-- Outcome of `requests.get` inside `lookup_tvmaze_single`: either a
response (status code, `image.original`, `image.medium` — absent `image`
means both fields absent) or a raised exception (timeout, network error). -/
inductive HttpResult where
  | response : Nat → Option Str → Option Str → HttpResult
  | exn : HttpResult
deriving DecidableEq

/-- The function `lookup_tvmaze_single(title)` given the behavior `net` of the network:
on status 200 return `image.original or image.medium`; on any other status
return `None`; a raised timeout/network exception propagates (there is no
`try`/`except` around the call). -/
def lookup_tvmaze_single (net : Str → HttpResult) (title : Str) :
    Except Unit (Option Str) :=
  match net title with
  | .exn => .error ()
  | .response status orig med =>
    if status == 200 then .ok (pyOr orig med) else .ok none

/-- Model of `[(c.text or "").strip().lower() for c in prog.findall("category") if c.text]`
(`Char.toLower` models `str.lower` on the ASCII letters the map keys use). -/
def catKeys (p : Programme) : List Str :=
  (p.categories.filter (fun c => !c.isEmpty)).map
    (fun c => (pyStrip c).map Char.toLower)

/-- Model of `str(ASSETS / name)`: join the assets directory with a file name. -/
def assetPath (assets name : Str) : Str :=
  assets ++ ('/' :: name)

/-- Model of the guarded icon attachment `if url: ET.SubElement(prog, "icon", ...)`. -/
def condAddIcon (p : Programme) (url : Option Str) : Programme :=
  match url with
  | some u => if u.isEmpty then p else addIcon p u
  | none => p

/-- Result of one iteration of the driver loop: the (possibly enriched)
programme, the cache, the titles passed to the lookup client during this
iteration, and whether the programme counted as processed. -/
structure StepRes where
  prog : Programme
  cache : Cache
  lookups : List Str
  flag : Bool
deriving DecidableEq

/-- The body of the `for` loop of `main` for one programme: skip on a
missing title element, a blank raw title, or a pre-existing icon;
otherwise cache branch / lookup branch, then the generic-category
fallback, then the unknown fallback.  An exception raised by the lookup
client propagates and aborts. -/
def processProgramme (f : Str → Except Unit (Option Str)) (assets : Str)
    (cache : Cache) (p : Programme) : Except Unit StepRes :=
  match p.title with
  | none => .ok ⟨p, cache, [], false⟩
  | some t0 =>
    if (pyStrip t0).isEmpty then .ok ⟨p, cache, [], false⟩
    else
      let title := normalize_title (pyStrip t0)
      if !p.icons.isEmpty then .ok ⟨p, cache, [], false⟩
      else
        let step1 : Except Unit (Programme × Cache × List Str) :=
          match cacheFind cache title with
          | some url => .ok (condAddIcon p url, cache, [])
          | none =>
            match f title with
            | .error e => .error e
            | .ok poster =>
              .ok (condAddIcon p poster, cacheInsert cache title poster, [title])
        match step1 with
        | .error e => .error e
        | .ok (p1, cache1, lks) =>
          let p2 :=
            if p1.icons.isEmpty then
              match generic_match (catKeys p) with
              | some g => addIcon p1 (assetPath assets g)
              | none => p1
            else p1
          let p3 := if p2.icons.isEmpty then
              addIcon p2 (assetPath assets GENERIC_UNKNOWN)
            else p2
          .ok ⟨p3, cache1, lks, true⟩

/-- Whether the loop body reaches the processing part for a programme:
a title element is present, its stripped text is non-blank, and the
programme has no pre-existing icon. -/
def notSkipped (p : Programme) : Bool :=
  match p.title with
  | none => false
  | some t0 => !(pyStrip t0).isEmpty && p.icons.isEmpty

/-- Accumulated result of a run: output programmes (document order), final
cache, number of processed programmes, the `processed` counts at which a
mid-run checkpoint persisted cache and document, and the titles passed to
the lookup client. -/
structure RunAcc where
  progs : List Programme
  cache : Cache
  processed : Nat
  events : List Nat
  lookups : List Str
deriving DecidableEq

/-- The `for` loop of `main` over the remaining programmes, starting from
a given cache and processed count; a checkpoint event is recorded when
`processed % BATCH_SIZE == 0` after a processed programme. -/
def runLoop (f : Str → Except Unit (Option Str)) (assets : Str) (batch : Nat)
    (cache : Cache) (processed : Nat) : List Programme → Except Unit RunAcc
  | [] => .ok ⟨[], cache, processed, [], []⟩
  | p :: rest =>
    match processProgramme f assets cache p with
    | .error e => .error e
    | .ok r =>
      let n := if r.flag then processed + 1 else processed
      match runLoop f assets batch r.cache n rest with
      | .error e => .error e
      | .ok acc =>
        .ok ⟨r.prog :: acc.progs, acc.cache, acc.processed,
             (if r.flag && n % batch == 0 then [n] else []) ++ acc.events,
             r.lookups ++ acc.lookups⟩

/-- The function `main` from loading the document to the end of the loop: process every
programme in document order against the initial cache. -/
def run (f : Str → Except Unit (Option Str)) (assets : Str) (batch : Nat)
    (cache0 : Cache) (doc : List Programme) : Except Unit RunAcc :=
  runLoop f assets batch cache0 0 doc

/-- Total number of times `save_cache`+`tree.write` execute in a completed
run: one per checkpoint event plus the final write after the loop. -/
def totalPersists (acc : RunAcc) : Nat :=
  acc.events.length + 1

/-! ## Cache lemmas -/

theorem cacheInsert_of_absent (cache : Cache) (k : Str) (v : Option Str)
    (h : cacheFind cache k = none) : cacheInsert cache k v = cache ++ [(k, v)] := by
  unfold cacheFind at h
  unfold cacheInsert
  rw [Option.map_eq_none'] at h
  simp [h]

theorem cacheFind_append_of_found (cache : Cache) (k t : Str) (v w : Option Str)
    (h : cacheFind cache t = some w) :
    cacheFind (cache ++ [(k, v)]) t = some w := by
  unfold cacheFind at h ⊢
  rw [List.find?_append]
  rcases hf2 : cache.find? (fun e => e.1 == t) with _ | e2
  · simp [hf2] at h
  · simp [hf2] at h ⊢
    exact h

theorem cacheFind_append_self (cache : Cache) (k : Str) (v : Option Str)
    (h : cacheFind cache k = none) :
    cacheFind (cache ++ [(k, v)]) k = some v := by
  unfold cacheFind at h ⊢
  rw [Option.map_eq_none'] at h
  rw [List.find?_append, h]
  simp

theorem cacheFind_preserved (cache : Cache) (k t : Str) (v w : Option Str)
    (habs : cacheFind cache k = none) (h : cacheFind cache t = some w) :
    cacheFind (cacheInsert cache k v) t = some w := by
  rw [cacheInsert_of_absent cache k v habs]
  exact cacheFind_append_of_found cache k t v w h

/-! ## Lemmas about one iteration of the driver loop -/

theorem processProgramme_skip (f : Str → Except Unit (Option Str)) (assets : Str)
    (cache : Cache) (p : Programme) (h : notSkipped p = false) :
    processProgramme f assets cache p = .ok ⟨p, cache, [], false⟩ := by
  obtain ⟨pt, pc, pi⟩ := p
  cases pt with
  | none => rfl
  | some t0 =>
    simp only [notSkipped, Bool.and_eq_false_iff, Bool.not_eq_false'] at h
    by_cases h1 : (pyStrip t0).isEmpty
    · simp [processProgramme, h1]
    · rcases h with h | h
      · exact absurd h h1
      · simp [processProgramme, h1, h]

theorem processProgramme_flag (f : Str → Except Unit (Option Str)) (assets : Str)
    (cache : Cache) (p : Programme) (r : StepRes)
    (h : processProgramme f assets cache p = .ok r) : r.flag = notSkipped p := by
  obtain ⟨pt, pc, pi⟩ := p
  cases pt with
  | none =>
    simp only [processProgramme] at h
    cases h
    rfl
  | some t0 =>
    by_cases h1 : (pyStrip t0).isEmpty
    · simp only [processProgramme, h1, if_true] at h
      cases h
      simp [notSkipped, h1]
    · by_cases h2 : pi.isEmpty
      · rcases hcf : cacheFind cache (normalize_title (pyStrip t0)) with _ | url
        · rcases hf : f (normalize_title (pyStrip t0)) with e | poster
          · simp only [processProgramme, h1, h2, hcf, hf, if_false, if_true,
              Bool.not_true, Bool.not_false] at h
            exact Except.noConfusion h
          · simp only [processProgramme, h1, h2, hcf, hf, if_false, if_true,
              Bool.not_true, Bool.not_false] at h
            cases h
            simp [notSkipped, h1, h2]
        · simp only [processProgramme, h1, h2, hcf, if_false, if_true,
            Bool.not_true, Bool.not_false] at h
          cases h
          simp [notSkipped, h1, h2]
      · simp only [processProgramme, h1, h2, if_false, if_true,
          Bool.not_true, Bool.not_false] at h
        cases h
        simp [notSkipped, h1, h2]

theorem condAddIcon_icons_len (p : Programme) (url : Option Str) :
    (condAddIcon p url).icons.length ≤ p.icons.length + 1 := by
  rcases url with _ | u
  · simp [condAddIcon]
  · by_cases hu : u.isEmpty <;> simp [condAddIcon, addIcon, hu]

theorem fallback_icons (p1 : Programme) (cats : List Str) (assets : Str)
    (hp : p1.icons.length ≤ 1) :
    (if (if p1.icons.isEmpty then
            match generic_match cats with
            | some g => addIcon p1 (assetPath assets g)
            | none => p1
          else p1).icons.isEmpty then
       addIcon (if p1.icons.isEmpty then
            match generic_match cats with
            | some g => addIcon p1 (assetPath assets g)
            | none => p1
          else p1) (assetPath assets GENERIC_UNKNOWN)
     else (if p1.icons.isEmpty then
            match generic_match cats with
            | some g => addIcon p1 (assetPath assets g)
            | none => p1
          else p1)).icons.length = 1 := by
  by_cases h1 : p1.icons.isEmpty
  · rw [List.isEmpty_iff] at h1
    rcases hg : generic_match cats with _ | g <;>
      simp [hg, h1, addIcon, List.isEmpty_iff]
  · have hlen : p1.icons.length = 1 := by
      rw [List.isEmpty_iff] at h1
      have : p1.icons.length ≠ 0 := by
        simpa [List.length_eq_zero] using h1
      omega
    simp only [h1, if_false, Bool.false_eq_true]
    have h1' : p1.icons.isEmpty = false := by
      simpa using h1
    simp [h1', hlen]

theorem processProgramme_icons (f : Str → Except Unit (Option Str)) (assets : Str)
    (cache : Cache) (p : Programme) (r : StepRes)
    (hns : notSkipped p = true)
    (h : processProgramme f assets cache p = .ok r) :
    r.prog.icons.length = 1 := by
  obtain ⟨pt, pc, pi⟩ := p
  cases pt with
  | none => simp [notSkipped] at hns
  | some t0 =>
    simp only [notSkipped, Bool.and_eq_true, Bool.not_eq_true'] at hns
    obtain ⟨h1, h2⟩ := hns
    have hpi : pi = [] := by simpa [List.isEmpty_iff] using h2
    subst hpi
    have hlen : ∀ u : Option Str,
        (condAddIcon ⟨some t0, pc, []⟩ u).icons.length ≤ 1 := by
      intro u
      simpa using condAddIcon_icons_len ⟨some t0, pc, []⟩ u
    rcases hcf : cacheFind cache (normalize_title (pyStrip t0)) with _ | url
    · rcases hf : f (normalize_title (pyStrip t0)) with e | poster
      · simp only [processProgramme, h1, h2, hcf, hf, if_false, if_true,
          Bool.not_true, Bool.not_false] at h
        exact Except.noConfusion h
      · simp only [processProgramme, h1, h2, hcf, hf, if_false, if_true,
          Bool.not_true, Bool.not_false] at h
        cases h
        exact fallback_icons _ _ _ (hlen poster)
    · simp only [processProgramme, h1, h2, hcf, if_false, if_true,
        Bool.not_true, Bool.not_false] at h
      cases h
      exact fallback_icons _ _ _ (hlen url)

theorem processProgramme_cache_pres (f : Str → Except Unit (Option Str)) (assets : Str)
    (cache : Cache) (p : Programme) (r : StepRes) (t : Str) (w : Option Str)
    (hc : cacheFind cache t = some w)
    (h : processProgramme f assets cache p = .ok r) :
    cacheFind r.cache t = some w ∧ t ∉ r.lookups := by
  obtain ⟨pt, pc, pi⟩ := p
  cases pt with
  | none =>
    simp only [processProgramme] at h
    cases h
    exact ⟨hc, by simp⟩
  | some t0 =>
    by_cases h1 : (pyStrip t0).isEmpty
    · simp only [processProgramme, h1, if_true] at h
      cases h
      exact ⟨hc, by simp⟩
    · by_cases h2 : pi.isEmpty
      · rcases hcf : cacheFind cache (normalize_title (pyStrip t0)) with _ | url
        · rcases hf : f (normalize_title (pyStrip t0)) with e | poster
          · simp only [processProgramme, h1, h2, hcf, hf, if_false, if_true,
              Bool.not_true, Bool.not_false] at h
            exact Except.noConfusion h
          · simp only [processProgramme, h1, h2, hcf, hf, if_false, if_true,
              Bool.not_true, Bool.not_false] at h
            cases h
            have hne : t ≠ normalize_title (pyStrip t0) := by
              intro hteq
              rw [hteq, hcf] at hc
              exact Option.noConfusion hc
            refine ⟨cacheFind_preserved _ _ _ _ _ hcf hc, ?_⟩
            simp [hne]
        · simp only [processProgramme, h1, h2, hcf, if_false, if_true,
            Bool.not_true, Bool.not_false] at h
          cases h
          exact ⟨hc, by simp⟩
      · simp only [processProgramme, h1, h2, if_false, if_true,
          Bool.not_true, Bool.not_false] at h
        cases h
        exact ⟨hc, by simp⟩

theorem processProgramme_cache_mem (f : Str → Except Unit (Option Str)) (assets : Str)
    (cache : Cache) (p : Programme) (r : StepRes)
    (h : processProgramme f assets cache p = .ok r) :
    ∀ e ∈ r.cache, e ∈ cache ∨
      (f e.1 = .ok e.2 ∧ ∃ t0, p.title = some t0 ∧
        e.1 = normalize_title (pyStrip t0)) := by
  obtain ⟨pt, pc, pi⟩ := p
  cases pt with
  | none =>
    simp only [processProgramme] at h
    cases h
    exact fun e he => Or.inl he
  | some t0 =>
    by_cases h1 : (pyStrip t0).isEmpty
    · simp only [processProgramme, h1, if_true] at h
      cases h
      exact fun e he => Or.inl he
    · by_cases h2 : pi.isEmpty
      · rcases hcf : cacheFind cache (normalize_title (pyStrip t0)) with _ | url
        · rcases hf : f (normalize_title (pyStrip t0)) with e | poster
          · simp only [processProgramme, h1, h2, hcf, hf, if_false, if_true,
              Bool.not_true, Bool.not_false] at h
            exact Except.noConfusion h
          · simp only [processProgramme, h1, h2, hcf, hf, if_false, if_true,
              Bool.not_true, Bool.not_false] at h
            cases h
            intro e he
            simp only [StepRes.cache] at he
            rw [cacheInsert_of_absent _ _ _ hcf] at he
            rcases List.mem_append.mp he with hin | hin
            · exact Or.inl hin
            · rcases e with ⟨k, v⟩
              simp only [List.mem_singleton, Prod.mk.injEq] at hin
              obtain ⟨hk, hv⟩ := hin
              subst hk
              subst hv
              exact Or.inr ⟨hf, t0, rfl, rfl⟩
        · simp only [processProgramme, h1, h2, hcf, if_false, if_true,
            Bool.not_true, Bool.not_false] at h
          cases h
          exact fun e he => Or.inl he
      · simp only [processProgramme, h1, h2, if_false, if_true,
          Bool.not_true, Bool.not_false] at h
        cases h
        exact fun e he => Or.inl he

theorem processProgramme_lookup (f : Str → Except Unit (Option Str)) (assets : Str)
    (cache : Cache) (p : Programme) (r : StepRes) (t0 : Str) (v : Option Str)
    (ht : p.title = some t0)
    (h1 : (pyStrip t0).isEmpty = false)
    (h2 : p.icons = [])
    (hcf : cacheFind cache (normalize_title (pyStrip t0)) = none)
    (hf : f (normalize_title (pyStrip t0)) = .ok v)
    (h : processProgramme f assets cache p = .ok r) :
    r.flag = true ∧ r.lookups = [normalize_title (pyStrip t0)] ∧
      cacheFind r.cache (normalize_title (pyStrip t0)) = some v := by
  obtain ⟨pt, pc, pi⟩ := p
  simp only at ht h2
  subst ht
  subst h2
  simp only [processProgramme, h1, hcf, hf, if_false, if_true,
    Bool.not_true, Bool.not_false, List.isEmpty_nil] at h
  cases h
  refine ⟨rfl, rfl, ?_⟩
  simp only [StepRes.cache]
  rw [cacheInsert_of_absent _ _ _ hcf]
  exact cacheFind_append_self _ _ _ hcf

/-! ## Lemmas about the driver loop -/

theorem runLoop_length (f : Str → Except Unit (Option Str)) (assets : Str)
    (batch : Nat) (cache : Cache) (n : Nat) (doc : List Programme) (acc : RunAcc)
    (h : runLoop f assets batch cache n doc = .ok acc) :
    acc.progs.length = doc.length := by
  induction doc generalizing cache n acc with
  | nil =>
    simp only [runLoop] at h
    cases h
    rfl
  | cons p rest ih =>
    simp only [runLoop] at h
    rcases hs : processProgramme f assets cache p with e | r <;> simp only [hs] at h
    · exact Except.noConfusion h
    · rcases hr : runLoop f assets batch r.cache
        (if r.flag then n + 1 else n) rest with e | acc2 <;> simp only [hr] at h
      · exact Except.noConfusion h
      · cases h
        simpa using ih _ _ _ hr

theorem runLoop_get (f : Str → Except Unit (Option Str)) (assets : Str)
    (batch : Nat) (cache : Cache) (n : Nat) (doc : List Programme) (acc : RunAcc)
    (h : runLoop f assets batch cache n doc = .ok acc) :
    ∀ i (hi : i < doc.length) (hi2 : i < acc.progs.length),
      ∃ c r, processProgramme f assets c (doc.get ⟨i, hi⟩) = .ok r ∧
        acc.progs.get ⟨i, hi2⟩ = r.prog := by
  induction doc generalizing cache n acc with
  | nil =>
    intro i hi
    exact absurd hi (by simp)
  | cons p rest ih =>
    simp only [runLoop] at h
    rcases hs : processProgramme f assets cache p with e | r <;> simp only [hs] at h
    · exact Except.noConfusion h
    · rcases hr : runLoop f assets batch r.cache
        (if r.flag then n + 1 else n) rest with e | acc2 <;> simp only [hr] at h
      · exact Except.noConfusion h
      · cases h
        intro i hi hi2
        match i with
        | 0 => exact ⟨cache, r, hs, rfl⟩
        | Nat.succ j =>
          have hj : j < rest.length := by simpa using hi
          have hj2 : j < acc2.progs.length := by simpa using hi2
          obtain ⟨c, r2, hpr, hget⟩ := ih _ _ _ hr j hj hj2
          exact ⟨c, r2, hpr, by simpa using hget⟩

theorem runLoop_cache_pres (f : Str → Except Unit (Option Str)) (assets : Str)
    (batch : Nat) (cache : Cache) (n : Nat) (doc : List Programme) (acc : RunAcc)
    (t : Str) (w : Option Str)
    (hc : cacheFind cache t = some w)
    (h : runLoop f assets batch cache n doc = .ok acc) :
    cacheFind acc.cache t = some w ∧ t ∉ acc.lookups := by
  induction doc generalizing cache n acc with
  | nil =>
    simp only [runLoop] at h
    cases h
    exact ⟨hc, by simp⟩
  | cons p rest ih =>
    simp only [runLoop] at h
    rcases hs : processProgramme f assets cache p with e | r <;> simp only [hs] at h
    · exact Except.noConfusion h
    · rcases hr : runLoop f assets batch r.cache
        (if r.flag then n + 1 else n) rest with e | acc2 <;> simp only [hr] at h
      · exact Except.noConfusion h
      · cases h
        obtain ⟨hc1, hl1⟩ := processProgramme_cache_pres f assets cache p r t w hc hs
        obtain ⟨hc2, hl2⟩ := ih _ _ _ hc1 hr
        refine ⟨hc2, ?_⟩
        simp only [RunAcc.lookups, List.mem_append]
        rintro (hmem | hmem)
        · exact hl1 hmem
        · exact hl2 hmem

theorem runLoop_cache_mem (f : Str → Except Unit (Option Str)) (assets : Str)
    (batch : Nat) (cache : Cache) (n : Nat) (doc : List Programme) (acc : RunAcc)
    (h : runLoop f assets batch cache n doc = .ok acc) :
    ∀ e ∈ acc.cache, e ∈ cache ∨
      (f e.1 = .ok e.2 ∧ ∃ p ∈ doc, ∃ t0, p.title = some t0 ∧
        e.1 = normalize_title (pyStrip t0)) := by
  induction doc generalizing cache n acc with
  | nil =>
    simp only [runLoop] at h
    cases h
    exact fun e he => Or.inl he
  | cons p rest ih =>
    simp only [runLoop] at h
    rcases hs : processProgramme f assets cache p with e | r <;> simp only [hs] at h
    · exact Except.noConfusion h
    · rcases hr : runLoop f assets batch r.cache
        (if r.flag then n + 1 else n) rest with e | acc2 <;> simp only [hr] at h
      · exact Except.noConfusion h
      · cases h
        intro e he
        rcases ih _ _ _ hr e he with hin | ⟨hfe, q, hq, t0, hqt, hkey⟩
        · rcases processProgramme_cache_mem f assets cache p r hs e hin with
            hin2 | ⟨hfe, t0, hpt, hkey⟩
          · exact Or.inl hin2
          · exact Or.inr ⟨hfe, p, by simp, t0, hpt, hkey⟩
        · exact Or.inr ⟨hfe, q, by simp [hq], t0, hqt, hkey⟩

theorem runLoop_events (f : Str → Except Unit (Option Str)) (assets : Str)
    (batch : Nat) (cache : Cache) (n : Nat) (doc : List Programme) (acc : RunAcc)
    (hall : ∀ p ∈ doc, notSkipped p = true)
    (h : runLoop f assets batch cache n doc = .ok acc) :
    acc.events =
      ((List.range doc.length).map (fun i => n + i + 1)).filter
        (fun m => m % batch == 0) := by
  induction doc generalizing cache n acc with
  | nil =>
    simp only [runLoop] at h
    cases h
    simp
  | cons p rest ih =>
    simp only [runLoop] at h
    rcases hs : processProgramme f assets cache p with e | r <;> simp only [hs] at h
    · exact Except.noConfusion h
    · rcases hr : runLoop f assets batch r.cache
        (if r.flag then n + 1 else n) rest with e | acc2 <;> simp only [hr] at h
      · exact Except.noConfusion h
      · have hflag : r.flag = true := by
          rw [processProgramme_flag f assets cache p r hs]
          exact hall p (by simp)
        rw [hflag] at h hr
        simp only [if_true, Bool.true_and] at h hr
        cases h
        have htail := ih _ _ _ (fun q hq => hall q (by simp [hq])) hr
        simp only [RunAcc.events, htail, List.length_cons,
          List.range_succ_eq_map, List.map_cons, List.map_map, List.filter_cons]
        have hmap : ((fun i => n + i + 1) ∘ Nat.succ) = (fun i => n + 1 + i + 1) := by
          funext i
          simp [Function.comp]
          omega
        rw [hmap]
        by_cases hb : (n + 1) % batch == 0
        · simp [hb, Nat.add_zero]
        · simp only [Bool.not_eq_true] at hb
          simp [hb, Nat.add_zero]

/-! ## Generic helper: find? returns the first match -/

theorem find?_of_first {α : Type} (p : α → Bool) :
    ∀ (l : List α) (i : Nat) (hi : i < l.length),
      p (l.get ⟨i, hi⟩) = true →
      (∀ j (hj : j < i), p (l.get ⟨j, Nat.lt_trans hj hi⟩) = false) →
      l.find? p = some (l.get ⟨i, hi⟩)
  | [], i, hi => absurd hi (by simp)
  | c :: rest, 0, _ => fun hp _ => by
      have hc : p c = true := hp
      simp [List.find?_cons, hc]
  | c :: rest, Nat.succ j, hi => fun hp hprev => by
      have hc : p c = false := by
        simpa using hprev 0 (Nat.succ_pos j)
      have hj : j < rest.length := by simpa using hi
      have htail := find?_of_first p rest j hj (by simpa using hp)
        (fun k hk => by simpa using hprev (k + 1) (Nat.succ_lt_succ hk))
      simp [List.find?_cons, hc, htail]

/-- C6: the generic category mapper returns the asset for the first
category, in original order, that is a key of the fixed table; it returns
none when no category matches; and on `["news", "weather"]` it returns
`generic_news.png`. -/
theorem C6_category_precedence :
    (∀ (cats : List Str) (i : Nat) (hi : i < cats.length),
        isCatKey (cats.get ⟨i, hi⟩) = true →
        (∀ j (hj : j < i), isCatKey (cats.get ⟨j, Nat.lt_trans hj hi⟩) = false) →
        generic_match cats = dictGet GENERIC_CATEGORY_MAP (cats.get ⟨i, hi⟩)) ∧
    (∀ cats : List Str, (∀ c ∈ cats, isCatKey c = false) →
        generic_match cats = none) ∧
    generic_match ["news".data, "weather".data] = some "generic_news.png".data := by
  refine ⟨?_, ?_, by decide⟩
  · intro cats i hi hp hprev
    unfold generic_match
    rw [find?_of_first isCatKey cats i hi hp hprev]
  · intro cats hall
    unfold generic_match
    have : cats.find? isCatKey = none := by
      rw [List.find?_eq_none]
      intro c hc
      simp [hall c hc]
    rw [this]

/-- Witness for C6 at a concrete category list whose second entry is the
first key of the table. -/
theorem C6_witness :
    generic_match ["sports".data, "news".data] = some "generic_news.png".data := by
  have hi : 1 < (["sports".data, "news".data] : List Str).length := by
    simp
  have hp : isCatKey ((["sports".data, "news".data] : List Str).get ⟨1, hi⟩) = true := by
    show isCatKey "news".data = true
    decide
  have hprev : ∀ j (hj : j < 1),
      isCatKey ((["sports".data, "news".data] : List Str).get
        ⟨j, Nat.lt_trans hj hi⟩) = false := by
    intro j hj
    have hj0 : j = 0 := by omega
    subst hj0
    show isCatKey "sports".data = false
    decide
  have h := C6_category_precedence.1 ["sports".data, "news".data] 1 hi hp hprev
  rw [h]
  show dictGet GENERIC_CATEGORY_MAP "news".data = some "generic_news.png".data
  decide

/-- C7: serializing the cache and deserializing it yields the same
mapping: `load(save(m)) = m`. -/
theorem C7_cache_roundtrip (m : Cache) : load_cache (save_cache m) = some m := by
  induction m with
  | nil => rfl
  | cons e rest ih =>
    rcases e with ⟨k, v⟩
    simp only [load_cache, save_cache] at ih
    rcases v with _ | s <;>
      simp [load_cache, save_cache, readEntries, readEntry, ih]

/-! ## Concrete instances used by the witnesses -/

/-- A lookup client that always answers "no image found". -/
def lookupNone : Str → Except Unit (Option Str) := fun _ => .ok none

/-- A network on which every request raises (timeout / network error). -/
def netExn : Str → HttpResult := fun _ => .exn

/-- A network that always answers HTTP 404. -/
def net404 : Str → HttpResult := fun _ => .response 404 none none

/-- A programme titled "A" with no categories and no icon. -/
def progA : Programme := ⟨some "A".data, [], []⟩

/-- The programme `progA` after enrichment with the unknown-asset fallback icon. -/
def progAIcon : Programme := ⟨some "A".data, [], ["as/generic_unknown.png".data]⟩

/-- Run result for `[progA]` with `lookupNone` on an empty cache. -/
def accA : RunAcc := ⟨[progAIcon], [("A".data, none)], 1, [], ["A".data]⟩

/-- Run result for `[progA]` with a cache already holding the pair of "A" and null. -/
def accB : RunAcc := ⟨[progAIcon], [("A".data, none)], 1, [], []⟩

/-- C1: in a completed run, a programme that is not skipped (title element
present, raw title non-blank, no pre-existing icon) ends the run with
exactly one icon element; the output document has one programme per input
programme. -/
theorem C1_exactly_one_icon (f : Str → Except Unit (Option Str)) (assets : Str)
    (batch : Nat) (cache0 : Cache) (doc : List Programme) (acc : RunAcc)
    (h : run f assets batch cache0 doc = .ok acc) :
    acc.progs.length = doc.length ∧
    ∀ i (hi : i < doc.length) (hi2 : i < acc.progs.length),
      notSkipped (doc.get ⟨i, hi⟩) = true →
      (acc.progs.get ⟨i, hi2⟩).icons.length = 1 := by
  refine ⟨runLoop_length f assets batch cache0 0 doc acc h, ?_⟩
  intro i hi hi2 hns
  obtain ⟨c, r, hpr, hget⟩ := runLoop_get f assets batch cache0 0 doc acc h i hi hi2
  rw [hget]
  exact processProgramme_icons f assets c _ r hns hpr

theorem C1_witness : (accA.progs.get ⟨0, by decide⟩).icons.length = 1 :=
  (C1_exactly_one_icon lookupNone "as".data 2 [] [progA] accA (by decide)).2
    0 (by decide) (by decide) (by decide)

/-- C4: a title whose cache entry is the null no-result marker is never
passed to the lookup client during a run, and the entry survives the run
unchanged, so later runs starting from the resulting cache are protected
by the same theorem. -/
theorem C4_null_entry_never_requeried (f : Str → Except Unit (Option Str))
    (assets : Str) (batch : Nat) (cache0 : Cache) (doc : List Programme)
    (acc : RunAcc) (t : Str)
    (hc : cacheFind cache0 t = some none)
    (h : run f assets batch cache0 doc = .ok acc) :
    t ∉ acc.lookups ∧ cacheFind acc.cache t = some none := by
  obtain ⟨h1, h2⟩ := runLoop_cache_pres f assets batch cache0 0 doc acc t none hc h
  exact ⟨h2, h1⟩

theorem C4_witness :
    "A".data ∉ accB.lookups ∧ cacheFind accB.cache "A".data = some none :=
  C4_null_entry_never_requeried lookupNone "as".data 2 [("A".data, none)]
    [progA] accB "A".data (by decide) (by decide)

/-- C5: a programme that already has an icon is left completely unmodified
by the loop body (no icon added, no lookup, cache untouched, not counted
as processed); consequently a run over a document leaves every
already-iconed programme exactly as it was, so a second run over the
pipeline's own output is a no-op on every already-iconed programme. -/
theorem C5_preexisting_icon_untouched :
    (∀ (f : Str → Except Unit (Option Str)) (assets : Str) (cache : Cache)
        (p : Programme), p.icons ≠ [] →
        processProgramme f assets cache p = .ok ⟨p, cache, [], false⟩) ∧
    (∀ (f : Str → Except Unit (Option Str)) (assets : Str) (batch : Nat)
        (cache0 : Cache) (doc : List Programme) (acc : RunAcc),
        run f assets batch cache0 doc = .ok acc →
        ∀ i (hi : i < doc.length) (hi2 : i < acc.progs.length),
          (doc.get ⟨i, hi⟩).icons ≠ [] →
          acc.progs.get ⟨i, hi2⟩ = doc.get ⟨i, hi⟩) := by
  have hskip : ∀ p : Programme, p.icons ≠ [] → notSkipped p = false := by
    intro p hp
    obtain ⟨pt, pc, pi⟩ := p
    cases pt with
    | none => rfl
    | some t0 =>
      simp only at hp
      simp [notSkipped, List.isEmpty_iff, hp]
  constructor
  · intro f assets cache p hp
    exact processProgramme_skip f assets cache p (hskip p hp)
  · intro f assets batch cache0 doc acc h i hi hi2 hic
    obtain ⟨c, r, hpr, hget⟩ := runLoop_get f assets batch cache0 0 doc acc h i hi hi2
    rw [processProgramme_skip f assets c _ (hskip _ hic)] at hpr
    cases hpr
    exact hget

theorem C5_witness :
    processProgramme lookupNone "as".data [] ⟨some "A".data, [], ["x".data]⟩ =
      .ok ⟨⟨some "A".data, [], ["x".data]⟩, [], [], false⟩ :=
  C5_preexisting_icon_untouched.1 lookupNone "as".data []
    ⟨some "A".data, [], ["x".data]⟩ (by decide)

/-- C3 (amended): a non-200 HTTP response from the upstream lookup is
returned as "no result" and, on a cache miss, recorded as a definitive
null cache entry under the normalized title; but a timeout or network
error raises an exception that propagates out of `lookup_tvmaze_single`
uncaught and aborts the run. -/
theorem C3_failures (f : Str → Except Unit (Option Str)) :
    (∀ (net : Str → HttpResult) (t : Str) (status : Nat) (orig med : Option Str),
        net t = .response status orig med → status ≠ 200 →
        lookup_tvmaze_single net t = .ok none) ∧
    (∀ (assets : Str) (cache : Cache) (p : Programme) (r : StepRes) (t0 : Str),
        p.title = some t0 → (pyStrip t0).isEmpty = false → p.icons = [] →
        cacheFind cache (normalize_title (pyStrip t0)) = none →
        f (normalize_title (pyStrip t0)) = .ok none →
        processProgramme f assets cache p = .ok r →
        cacheFind r.cache (normalize_title (pyStrip t0)) = some none) ∧
    (∀ (net : Str → HttpResult) (t : Str), net t = .exn →
        lookup_tvmaze_single net t = .error ()) := by
  refine ⟨?_, ?_, ?_⟩
  · intro net t status orig med hnet hst
    unfold lookup_tvmaze_single
    rw [hnet]
    have : (status == 200) = false := by simpa using hst
    simp [this]
  · intro assets cache p r t0 ht h1 h2 hcf hf h
    exact (processProgramme_lookup f assets cache p r t0 none ht h1 h2 hcf hf h).2.2
  · intro net t hnet
    unfold lookup_tvmaze_single
    rw [hnet]

theorem C3_witness :
    lookup_tvmaze_single net404 "A".data = .ok none ∧
    cacheFind [("A".data, none)] (normalize_title (pyStrip "A".data)) = some none ∧
    lookup_tvmaze_single netExn "A".data = .error () := by
  refine ⟨(C3_failures lookupNone).1 net404 "A".data 404 none none rfl (by decide),
    (C3_failures lookupNone).2.1 "as".data [] progA
      ⟨progAIcon, [("A".data, none)], ["A".data], true⟩ "A".data rfl (by decide)
      rfl (by decide) rfl (by decide),
    (C3_failures lookupNone).2.2 netExn "A".data rfl⟩

/-- C3 counterexample: a raised timeout/network exception is not recorded
as a cache entry — it aborts the run: on a document with one lookupable
programme and a network where every request raises, the whole run is an
error, and the lookup itself propagates the exception instead of
returning a null result. -/
theorem C3_counterexample :
    run (lookup_tvmaze_single netExn) "as".data 2 [] [progA] = .error () ∧
    lookup_tvmaze_single netExn "A".data = .error () := by
  decide

/-- C8: with batch size 2 and five programmes all of which are processed,
a completed run checkpoints (persisting cache and document together)
exactly after the 2nd and 4th processed programme, and with the final
persist performs 3 persists in total. -/
theorem C8_checkpoint_boundary (f : Str → Except Unit (Option Str))
    (assets : Str) (cache0 : Cache) (doc : List Programme) (acc : RunAcc)
    (hlen : doc.length = 5)
    (hall : ∀ p ∈ doc, notSkipped p = true)
    (h : run f assets 2 cache0 doc = .ok acc) :
    acc.events = [2, 4] ∧ totalPersists acc = 3 := by
  have he := runLoop_events f assets 2 cache0 0 doc acc hall h
  rw [hlen] at he
  have hcomp : ((List.range 5).map (fun i => 0 + i + 1)).filter
      (fun m => m % 2 == 0) = [2, 4] := by decide
  rw [hcomp] at he
  exact ⟨he, by simp [totalPersists, he]⟩

theorem C8_witness :
    (⟨List.replicate 5 progAIcon, [("A".data, none)], 5, [2, 4],
        ["A".data]⟩ : RunAcc).events = [2, 4] ∧
    totalPersists ⟨List.replicate 5 progAIcon, [("A".data, none)], 5, [2, 4],
        ["A".data]⟩ = 3 :=
  C8_checkpoint_boundary lookupNone "as".data [] [progA, progA, progA, progA, progA]
    ⟨List.replicate 5 progAIcon, [("A".data, none)], 5, [2, 4], ["A".data]⟩
    (by decide) (by decide) (by decide)

/-- C9: every entry of the cache at the end of a completed run either was
already in the starting cache or maps the normalized title of some
programme of the document to exactly the lookup client's result for that
title; in particular the generic asset paths attached as icons are never
written into the cache. -/
theorem C9_cache_only_lookup_results (f : Str → Except Unit (Option Str))
    (assets : Str) (batch : Nat) (cache0 : Cache) (doc : List Programme)
    (acc : RunAcc)
    (h : run f assets batch cache0 doc = .ok acc) :
    ∀ e ∈ acc.cache, e ∈ cache0 ∨
      (f e.1 = .ok e.2 ∧ ∃ p ∈ doc, ∃ t0, p.title = some t0 ∧
        e.1 = normalize_title (pyStrip t0)) :=
  runLoop_cache_mem f assets batch cache0 0 doc acc h

theorem C9_witness :
    ("A".data, (none : Option Str)) ∈ ([] : Cache) ∨
    (lookupNone "A".data = .ok none ∧ ∃ p ∈ [progA], ∃ t0,
      p.title = some t0 ∧ "A".data = normalize_title (pyStrip t0)) :=
  C9_cache_only_lookup_results lookupNone "as".data 2 [] [progA] accA
    (by decide) ("A".data, none) (by decide)

/-- C10: the blank-title test uses the raw stripped title, before
normalization: a programme whose raw title is non-blank but whose
normalized title is the empty string is not skipped — it is passed to the
lookup client under the empty-string key and the result is cached under
that key. -/
theorem C10_blank_only_before_normalize (f : Str → Except Unit (Option Str))
    (assets : Str) (cache : Cache) (p : Programme) (r : StepRes) (t0 : Str)
    (v : Option Str)
    (ht : p.title = some t0)
    (h1 : (pyStrip t0).isEmpty = false)
    (hnorm : normalize_title (pyStrip t0) = [])
    (h2 : p.icons = [])
    (hcf : cacheFind cache [] = none)
    (hf : f [] = .ok v)
    (h : processProgramme f assets cache p = .ok r) :
    r.flag = true ∧ r.lookups = [[]] ∧ cacheFind r.cache [] = some v := by
  have hmain := processProgramme_lookup f assets cache p r t0 v ht h1 h2
    (by rw [hnorm]; exact hcf) (by rw [hnorm]; exact hf) h
  rw [hnorm] at hmain
  exact hmain

theorem C10_witness :
    (⟨⟨some "(NEW)".data, [], ["as/generic_unknown.png".data]⟩,
        [([], none)], [[]], true⟩ : StepRes).flag = true ∧
    (⟨⟨some "(NEW)".data, [], ["as/generic_unknown.png".data]⟩,
        [([], none)], [[]], true⟩ : StepRes).lookups = [[]] ∧
    cacheFind (⟨⟨some "(NEW)".data, [], ["as/generic_unknown.png".data]⟩,
        [([], none)], [[]], true⟩ : StepRes).cache [] = some none :=
  C10_blank_only_before_normalize lookupNone "as".data []
    ⟨some "(NEW)".data, [], []⟩
    ⟨⟨some "(NEW)".data, [], ["as/generic_unknown.png".data]⟩,
        [([], none)], [[]], true⟩
    "(NEW)".data none rfl (by decide) (by decide) rfl rfl rfl (by decide)

/-! ## Properties of whitespace collapsing -/

theorem collapseFuel_congr : ∀ (n m : Nat) (l : List Char),
    l.length ≤ n → l.length ≤ m → collapseFuel n l = collapseFuel m l := by
  intro n
  induction n with
  | zero =>
    intro m l hn _
    have hl : l = [] := by
      cases l with
      | nil => rfl
      | cons c rest => simp at hn
    subst hl
    cases m <;> rfl
  | succ n ih =>
    intro m l hn hm
    match l with
    | [] => cases m <;> rfl
    | [c] =>
      match m with
      | 0 => simp at hm
      | m + 1 => rfl
    | c :: d :: rest =>
      match m with
      | 0 => simp at hm
      | m + 1 =>
        simp only [collapseFuel]
        have hdrop := (List.dropWhile_suffix (l := d :: rest) isPyWs).sublist.length_le
        simp only [List.length_cons] at hn hm hdrop
        by_cases hcd : (isPyWs c && isPyWs d) = true
        · simp only [hcd, if_true]
          rw [ih m _ (by omega) (by omega)]
        · simp only [hcd, if_false, Bool.false_eq_true]
          rw [ih m (d :: rest) (by simp; omega) (by simp; omega)]

theorem collapseWs_nil : collapseWs [] = [] := rfl

theorem collapseWs_single (c : Char) : collapseWs [c] = [c] := rfl

theorem collapseWs_cons₂ (c d : Char) (rest : List Char) :
    collapseWs (c :: d :: rest) =
      if isPyWs c && isPyWs d then
        ' ' :: collapseWs ((d :: rest).dropWhile isPyWs)
      else
        c :: collapseWs (d :: rest) := by
  have hdrop := (List.dropWhile_suffix (l := d :: rest) isPyWs).sublist.length_le
  simp only [List.length_cons] at hdrop
  unfold collapseWs
  simp only [List.length_cons, collapseFuel]
  by_cases hcd : (isPyWs c && isPyWs d) = true
  · simp only [hcd, if_true]
    rw [collapseFuel_congr (rest.length + 1) ((d :: rest).dropWhile isPyWs).length _
      (by omega) le_rfl]
  · simp only [hcd, if_false, Bool.false_eq_true]

theorem collapseWs_induction (P : List Char → Prop)
    (h0 : P []) (h1 : ∀ c, P [c])
    (h2 : ∀ c d rest, isPyWs c = true → isPyWs d = true →
        P ((d :: rest).dropWhile isPyWs) → P (c :: d :: rest))
    (h3 : ∀ c d rest, (isPyWs c && isPyWs d) = false →
        P (d :: rest) → P (c :: d :: rest)) :
    ∀ l, P l := by
  have key : ∀ (n : Nat) (l : List Char), l.length ≤ n → P l := by
    intro n
    induction n with
    | zero =>
      intro l hl
      have : l = [] := by
        cases l with
        | nil => rfl
        | cons c rest => simp at hl
      subst this
      exact h0
    | succ n ih =>
      intro l hl
      match l with
      | [] => exact h0
      | [c] => exact h1 c
      | c :: d :: rest =>
        have hdrop := (List.dropWhile_suffix (l := d :: rest) isPyWs).sublist.length_le
        simp only [List.length_cons] at hl hdrop
        by_cases hc : isPyWs c = true
        · by_cases hd : isPyWs d = true
          · exact h2 c d rest hc hd (ih _ (by omega))
          · exact h3 c d rest (by simp [hd]) (ih _ (by simp; omega))
        · exact h3 c d rest (by simp [hc]) (ih _ (by simp; omega))
  exact fun l => key l.length l le_rfl

/-- Whether no two adjacent characters are both whitespace. -/
def noDoubleWs : List Char → Bool
  | [] => true
  | [_] => true
  | c :: d :: rest => !(isPyWs c && isPyWs d) && noDoubleWs (d :: rest)

theorem collapseWs_ne_nil (l : List Char) (h : l ≠ []) : collapseWs l ≠ [] := by
  match l with
  | [] => exact absurd rfl h
  | [c] => simp [collapseWs_single]
  | c :: d :: rest =>
    rw [collapseWs_cons₂]
    by_cases hcd : (isPyWs c && isPyWs d) = true <;> simp [hcd]

theorem collapseWs_head_of (l : List Char) (c : Char)
    (hh : l.head? = some c) (hc : isPyWs c = false) :
    (collapseWs l).head? = some c := by
  match l with
  | [] => exact Option.noConfusion hh
  | [a] =>
    rw [collapseWs_single]
    exact hh
  | a :: b :: rest =>
    have ha : a = c := by simpa using hh
    subst ha
    rw [collapseWs_cons₂]
    have : (isPyWs a && isPyWs b) = false := by simp [hc]
    simp [this]

theorem head?_dropWhile_not (l : List Char) (c : Char)
    (h : (l.dropWhile isPyWs).head? = some c) : isPyWs c = false := by
  induction l with
  | nil => exact Option.noConfusion h
  | cons d rest ih =>
    by_cases hd : isPyWs d = true
    · rw [List.dropWhile_cons_of_pos hd] at h
      exact ih h
    · rw [List.dropWhile_cons_of_neg hd] at h
      have : d = c := by simpa using h
      subst this
      simpa using hd

theorem collapseWs_mem (l : List Char) :
    ∀ c ∈ collapseWs l, c ∈ l ∨ c = ' ' := by
  induction l using collapseWs_induction with
  | h0 => simp [collapseWs_nil]
  | h1 a => simp [collapseWs_single]
  | h2 a b rest ha hb ih =>
    intro c hc
    rw [collapseWs_cons₂] at hc
    simp only [ha, hb, Bool.and_self, if_true, List.mem_cons] at hc
    rcases hc with hc | hc
    · exact Or.inr hc
    · rcases ih c hc with hin | hsp
      · exact Or.inl (List.mem_cons_of_mem a ((List.dropWhile_sublist _).mem hin))
      · exact Or.inr hsp
  | h3 a b rest hab ih =>
    intro c hc
    rw [collapseWs_cons₂, hab] at hc
    simp only [if_false, Bool.false_eq_true, List.mem_cons] at hc
    rcases hc with hc | hc
    · exact Or.inl (by simp [hc])
    · rcases ih c hc with hin | hsp
      · exact Or.inl (List.mem_cons_of_mem a hin)
      · exact Or.inr hsp

theorem noDoubleWs_collapseWs (l : List Char) :
    noDoubleWs (collapseWs l) = true := by
  induction l using collapseWs_induction with
  | h0 => rfl
  | h1 a => rfl
  | h2 a b rest ha hb ih =>
    rw [collapseWs_cons₂]
    simp only [ha, hb, Bool.and_self, if_true]
    rcases hdw : (b :: rest).dropWhile isPyWs with _ | ⟨e, tail⟩
    · rfl
    · have he : isPyWs e = false := head?_dropWhile_not (b :: rest) e (by rw [hdw]; rfl)
      have hhead := collapseWs_head_of (e :: tail) e rfl he
      rw [hdw] at ih
      rcases hcl : collapseWs (e :: tail) with _ | ⟨x, xs⟩
      · exact absurd hcl (collapseWs_ne_nil _ (by simp))
      · rw [hcl] at ih hhead
        have hx : x = e := by simpa using hhead
        subst hx
        simp [noDoubleWs, he, ih]
  | h3 a b rest hab ih =>
    rw [collapseWs_cons₂, hab]
    simp only [if_false, Bool.false_eq_true]
    rcases hcl : collapseWs (b :: rest) with _ | ⟨x, xs⟩
    · exact absurd hcl (collapseWs_ne_nil _ (by simp))
    · rw [hcl] at ih
      by_cases ha : isPyWs a = true
      · have hb : isPyWs b = false := by
          rcases Bool.and_eq_false_iff.mp hab with h | h
          · rw [ha] at h
            simp at h
          · exact h
        have hhead := collapseWs_head_of (b :: rest) b rfl hb
        rw [hcl] at hhead
        have hx : x = b := by simpa using hhead
        subst hx
        simp [noDoubleWs, hb, ih]
      · simp only [Bool.not_eq_true] at ha
        simp [noDoubleWs, ha, ih]

theorem collapseWs_of_noDoubleWs (l : List Char) (h : noDoubleWs l = true) :
    collapseWs l = l := by
  induction l using collapseWs_induction with
  | h0 => rfl
  | h1 a => rfl
  | h2 a b rest ha hb ih =>
    exfalso
    simp [noDoubleWs, ha, hb] at h
  | h3 a b rest hab ih =>
    rw [collapseWs_cons₂, hab]
    simp only [if_false, Bool.false_eq_true]
    rw [ih]
    simp only [noDoubleWs, Bool.and_eq_true] at h
    exact h.2

/-! ## Character-level lemmas for the normalizer -/

theorem nfkdChar_fix (c d : Char) (h : d ∈ nfkdChar c) : nfkdChar d = [d] := by
  by_cases h0 : c = 'ᴺ'
  · simp [nfkdChar, h0] at h
    subst h
    decide
  · by_cases h1 : c = 'ᵉ'
    · simp [nfkdChar, h0, h1] at h
      subst h
      decide
    · by_cases h2 : c = 'ʷ'
      · simp [nfkdChar, h0, h1, h2] at h
        subst h
        decide
      · simp [nfkdChar, h0, h1, h2] at h
        subst h
        simp [nfkdChar, h0, h1, h2]

theorem nfkd_fixed (l : List Char) (h : ∀ c ∈ l, nfkdChar c = [c]) :
    nfkd l = l := by
  induction l with
  | nil => rfl
  | cons c rest ih =>
    have hstep : nfkd (c :: rest) = nfkdChar c ++ nfkd rest := by
      simp [nfkd]
    rw [hstep, h c (by simp), ih (fun d hd => h d (by simp [hd]))]
    rfl

theorem mem_nfkd (s : List Char) (c : Char) (h : c ∈ nfkd s) :
    ∃ d ∈ s, c ∈ nfkdChar d := by
  unfold nfkd at h
  rw [List.mem_flatten] at h
  obtain ⟨lc, hlc, hcl⟩ := h
  rw [List.mem_map] at hlc
  obtain ⟨d, hd, rfl⟩ := hlc
  exact ⟨d, hd, hcl⟩

theorem mem_stripNew (s : List Char) (c : Char) (h : c ∈ stripNew s) : c ∈ s := by
  unfold stripNew at h
  rcases hf : (List.range (s.length + 1)).find? (fun i => matchesP (s.drop i)) with
    _ | i <;> rw [hf] at h
  · exact h
  · exact (List.take_sublist i s).mem h

theorem mem_pyStrip (s : List Char) (c : Char) (h : c ∈ pyStrip s) : c ∈ s := by
  unfold pyStrip at h
  rw [List.mem_reverse] at h
  have h2 := (List.dropWhile_sublist _).mem h
  rw [List.mem_reverse] at h2
  exact (List.dropWhile_sublist _).mem h2

theorem mem_replaceNL (s : List Char) (c : Char) (h : c ∈ replaceNL s) :
    c ∈ s ∨ c = ' ' := by
  unfold replaceNL at h
  rw [List.mem_map] at h
  obtain ⟨d, hd, heq⟩ := h
  by_cases hdn : d == '\n'
  · rw [if_pos hdn] at heq
    exact Or.inr heq.symm
  · rw [if_neg hdn] at heq
    exact Or.inl (heq ▸ hd)

theorem replaceNL_no_nl (s : List Char) : ∀ c ∈ replaceNL s, c ≠ '\n' := by
  intro c h
  unfold replaceNL at h
  rw [List.mem_map] at h
  obtain ⟨d, _, heq⟩ := h
  by_cases hdn : d == '\n'
  · rw [if_pos hdn] at heq
    rw [← heq]
    decide
  · rw [if_neg hdn] at heq
    rw [← heq]
    simpa using hdn

theorem replaceNL_id (s : List Char) (h : ∀ c ∈ s, c ≠ '\n') :
    replaceNL s = s := by
  induction s with
  | nil => rfl
  | cons c rest ih =>
    have hc : (c == '\n') = false := by
      simpa using h c (by simp)
    have ih2 := ih (fun d hd => h d (by simp [hd]))
    unfold replaceNL at ih2 ⊢
    rw [List.map_cons, ih2]
    simp [hc]

theorem dropWhile_eq_self_of_head (l : List Char)
    (h : ∀ c, l.head? = some c → isPyWs c = false) :
    l.dropWhile isPyWs = l := by
  cases l with
  | nil => rfl
  | cons c rest =>
    exact List.dropWhile_cons_of_neg (by simp [h c rfl])

theorem pyStrip_id (l : List Char)
    (hh : ∀ c, l.head? = some c → isPyWs c = false)
    (hl : ∀ c, l.getLast? = some c → isPyWs c = false) :
    pyStrip l = l := by
  unfold pyStrip
  rw [dropWhile_eq_self_of_head l hh]
  rw [dropWhile_eq_self_of_head l.reverse
    (fun c hc => hl c (by rwa [List.head?_reverse] at hc))]
  exact List.reverse_reverse l

theorem getLast?_suffix_ne_nil (l₁ l₂ : List Char) (h : l₁ <:+ l₂)
    (hne : l₁ ≠ []) : l₁.getLast? = l₂.getLast? := by
  obtain ⟨t, rfl⟩ := h
  exact (List.getLast?_append_of_ne_nil t hne).symm

theorem getLast?_collapseWs : ∀ l : List Char,
    (∀ c, l.getLast? = some c → isPyWs c = false) →
    ∀ c, (collapseWs l).getLast? = some c → isPyWs c = false := by
  intro l
  induction l using collapseWs_induction with
  | h0 =>
    intro _ c hc
    rw [collapseWs_nil] at hc
    exact Option.noConfusion hc
  | h1 a =>
    intro h c hc
    rw [collapseWs_single] at hc
    exact h c hc
  | h2 a b rest ha hb ih =>
    intro h c hc
    have hlast : ∀ x, (b :: rest).getLast? = some x → isPyWs x = false := by
      intro x hx
      exact h x (by rw [List.getLast?_cons_cons]; exact hx)
    rw [collapseWs_cons₂] at hc
    simp only [ha, hb, Bool.and_self, if_true] at hc
    rcases hdw : (b :: rest).dropWhile isPyWs with _ | ⟨e, tail⟩
    · exfalso
      have hall := List.dropWhile_eq_nil_iff.mp hdw
      rcases hgl : (b :: rest).getLast? with _ | x
      · exact List.noConfusion (List.getLast?_eq_none_iff.mp hgl)
      · have hx : x ∈ b :: rest := List.mem_of_mem_getLast? (by rw [hgl]; rfl)
        have := hall x hx
        rw [hlast x hgl] at this
        exact Bool.noConfusion this
    · have hl' : ∀ x, (e :: tail).getLast? = some x → isPyWs x = false := by
        intro x hx
        have heq : (e :: tail).getLast? = (b :: rest).getLast? := by
          rw [← hdw]
          exact getLast?_suffix_ne_nil _ _ (List.dropWhile_suffix _)
            (by rw [hdw]; simp)
        exact hlast x (by rw [← heq]; exact hx)
      rw [hdw] at hc
      rcases hcl : collapseWs (e :: tail) with _ | ⟨x, xs⟩
      · exact absurd hcl (collapseWs_ne_nil _ (by simp))
      · rw [hcl] at hc
        rw [List.getLast?_cons_cons] at hc
        rw [hdw] at ih
        exact ih hl' c (by rw [hcl]; exact hc)
  | h3 a b rest hab ih =>
    intro h c hc
    have hlast : ∀ x, (b :: rest).getLast? = some x → isPyWs x = false := by
      intro x hx
      exact h x (by rw [List.getLast?_cons_cons]; exact hx)
    rw [collapseWs_cons₂] at hc
    simp only [hab, if_false, Bool.false_eq_true] at hc
    rcases hcl : collapseWs (b :: rest) with _ | ⟨x, xs⟩
    · exact absurd hcl (collapseWs_ne_nil _ (by simp))
    · rw [hcl] at hc
      rw [List.getLast?_cons_cons] at hc
      exact ih hlast c (by rw [hcl]; exact hc)

theorem pyStrip_head (z : List Char) :
    ∀ c, (pyStrip z).head? = some c → isPyWs c = false := by
  intro c hc
  unfold pyStrip at hc
  set u := z.dropWhile isPyWs with hu
  set v := u.reverse.dropWhile isPyWs with hv
  have hpre : v.reverse <+: u := by
    obtain ⟨t, ht⟩ := List.dropWhile_suffix (l := u.reverse) isPyWs
    refine ⟨t.reverse, ?_⟩
    rw [← List.reverse_append, ht, List.reverse_reverse]
  obtain ⟨t, ht⟩ := hpre
  have hne : v.reverse ≠ [] := by
    intro hnil
    rw [hnil] at hc
    exact Option.noConfusion hc
  have hhead : u.head? = some c := by
    rw [← ht]
    rcases hvr : v.reverse with _ | ⟨x, xs⟩
    · exact absurd hvr hne
    · rw [hvr] at hc
      simpa using hc
  exact head?_dropWhile_not z c hhead

theorem pyStrip_last (z : List Char) :
    ∀ c, (pyStrip z).getLast? = some c → isPyWs c = false := by
  intro c hc
  unfold pyStrip at hc
  rw [List.getLast?_reverse] at hc
  exact head?_dropWhile_not _ c hc

theorem normalize_title_chars (s : Str) :
    ∀ c ∈ normalize_title s, c ∈ nfkd s ∨ c = ' ' := by
  intro c hc
  rcases collapseWs_mem _ c hc with h1 | hsp
  · rcases mem_replaceNL _ c (mem_pyStrip _ c h1) with h3 | hsp
    · exact Or.inl (mem_stripNew _ c h3)
    · exact Or.inr hsp
  · exact Or.inr hsp

theorem nfkd_normalize_title (s : Str) :
    nfkd (normalize_title s) = normalize_title s := by
  apply nfkd_fixed
  intro c hc
  rcases normalize_title_chars s c hc with h | hsp
  · obtain ⟨d, _, hcd⟩ := mem_nfkd s c h
    exact nfkdChar_fix d c hcd
  · rw [hsp]
    decide

theorem normalize_title_no_nl (s : Str) :
    ∀ c ∈ normalize_title s, c ≠ '\n' := by
  intro c hc
  rcases collapseWs_mem _ c hc with h1 | hsp
  · exact replaceNL_no_nl _ c (mem_pyStrip _ c h1)
  · rw [hsp]
    decide

theorem normalize_title_head (s : Str) :
    ∀ c, (normalize_title s).head? = some c → isPyWs c = false := by
  intro c hc
  have hform : normalize_title s =
      collapseWs (pyStrip (replaceNL (stripNew (nfkd s)))) := rfl
  rw [hform] at hc
  rcases hwc : pyStrip (replaceNL (stripNew (nfkd s))) with _ | ⟨x, xs⟩
  · rw [hwc, collapseWs_nil] at hc
    exact Option.noConfusion hc
  · have hx : isPyWs x = false := pyStrip_head _ x (by rw [hwc]; rfl)
    have hhead := collapseWs_head_of (x :: xs) x rfl hx
    rw [hwc, hhead] at hc
    have hxc : x = c := by simpa using hc
    rw [← hxc]
    exact hx

theorem normalize_title_last (s : Str) :
    ∀ c, (normalize_title s).getLast? = some c → isPyWs c = false := by
  intro c hc
  exact getLast?_collapseWs (pyStrip (replaceNL (stripNew (nfkd s))))
    (pyStrip_last _) c hc

theorem normalize_title_noDouble (s : Str) :
    noDoubleWs (normalize_title s) = true :=
  noDoubleWs_collapseWs _

/-- C2 (amended): `normalize_title` is idempotent exactly on the titles
whose normalized form is itself a fixed point of the trailing-"new"-marker
strip; when the normalized form still ends in a marker (e.g. for
`"a new new"`), a second application strips it again. -/
theorem C2_normalize_idempotent (s : Str)
    (h : stripNew (normalize_title s) = normalize_title s) :
    normalize_title (normalize_title s) = normalize_title s := by
  have h1 : nfkd (normalize_title s) = normalize_title s := nfkd_normalize_title s
  have h3 : replaceNL (normalize_title s) = normalize_title s :=
    replaceNL_id _ (normalize_title_no_nl s)
  have h4 : pyStrip (normalize_title s) = normalize_title s :=
    pyStrip_id _ (normalize_title_head s) (normalize_title_last s)
  have h5 : collapseWs (normalize_title s) = normalize_title s :=
    collapseWs_of_noDoubleWs _ (normalize_title_noDouble s)
  show collapseWs (pyStrip (replaceNL (stripNew (nfkd (normalize_title s))))) =
    normalize_title s
  rw [h1, h, h3, h4, h5]

/-- C2 counterexample: `normalize_title` is not idempotent on all titles —
the end-anchored regex strips one trailing "new" marker per application,
so `"a new new"` normalizes to `"a new"` and the second application gives
`"a"`; likewise the stylized `"Show ᴺᵉʷ new"` NFKD-decomposes to
`"Show New new"`, normalizes to `"Show New"`, and a second application
gives `"Show"`. -/
theorem C2_counterexample :
    (normalize_title (normalize_title "a new new".data) ≠
      normalize_title "a new new".data) ∧
    (normalize_title "Show ᴺᵉʷ new".data = "Show New".data ∧
      normalize_title (normalize_title "Show ᴺᵉʷ new".data) ≠
        normalize_title "Show ᴺᵉʷ new".data) := by
  refine ⟨by decide, by decide, by decide⟩

theorem C2_witness :
    stripNew (normalize_title "Show (NEW)".data) =
      normalize_title "Show (NEW)".data ∧
    normalize_title (normalize_title "Show (NEW)".data) =
      normalize_title "Show (NEW)".data :=
  ⟨by decide, C2_normalize_idempotent "Show (NEW)".data (by decide)⟩
